import Mathlib

/-!
Shallow embedding of the `ocrlib/nlbin.py` binarization pipeline.

Images are 2-D grids of rational samples (`Img`): the source operates on
floating-point numpy arrays; we model the arithmetic exactly over `ℚ`.
The scipy/numpy filtering primitives (`interpolation.zoom`,
`filters.percentile_filter`, `filters.gaussian_filter`,
`interpolation.rotate`, `morphology.binary_dilation`) and the elementwise
square root are external numeric collaborators; they are abstracted as a
bundle of function parameters (`Prims`), matching the view the specification takes
of them as pure mathematical operations.  Everything written in
`nlbin.py` itself is translated statement by statement.
-/

namespace Nlbin

/-- Model of a 2-D numpy float array: height, width, and a total sample
function (entries outside the bounds are junk values of the function and
are never relied upon). -/
structure Img where
  h : Nat
  w : Nat
  data : Nat → Nat → ℚ

instance : Inhabited Img := ⟨⟨0, 0, fun _ _ => 0⟩⟩

/-- Pointwise application of a scalar function, as numpy broadcasting does
for expressions like `raw - c` or `image / m`. -/
def mapImg (f : ℚ → ℚ) (img : Img) : Img :=
  ⟨img.h, img.w, fun i j => f (img.data i j)⟩

/-- Row-major flattening of the in-bounds samples, as `a.ravel()`. -/
def toList (img : Img) : List ℚ :=
  (List.range img.h).flatMap (fun i => (List.range img.w).map (fun j => img.data i j))

/-- Minimum of a list of rationals; `0` on the empty list (numpy raises
there; no claim exercises the empty case). -/
def aminL : List ℚ → ℚ
  | [] => 0
  | x :: xs => xs.foldl min x

/-- Maximum of a list of rationals; `0` on the empty list. -/
def amaxL : List ℚ → ℚ
  | [] => 0
  | x :: xs => xs.foldl max x

/-- Model of `np.amin` on a 2-D array. -/
def amin (img : Img) : ℚ := aminL (toList img)

/-- Model of `np.amax` on a 2-D array. -/
def amax (img : Img) : ℚ := amaxL (toList img)

/-- Model of `np.mean` of a list of samples (`0` on the empty list, where
numpy produces nan). -/
def meanL (l : List ℚ) : ℚ := l.sum / l.length

/-- Insertion into a sorted list, ascending. -/
def insertQ (x : ℚ) : List ℚ → List ℚ
  | [] => [x]
  | y :: ys => if x ≤ y then x :: y :: ys else y :: insertQ x ys

/-- Ascending insertion sort, modelling `np.sort` on sample values. -/
def sortQ : List ℚ → List ℚ
  | [] => []
  | x :: xs => insertQ x (sortQ xs)

/-- Model of `np.median`: middle element of the sorted data, or the average
of the two middle elements for even length (`0` on the empty list). -/
def medianL (l : List ℚ) : ℚ :=
  let s := sortQ l
  let n := s.length
  if n = 0 then 0
  else if n % 2 = 1 then s.getD (n / 2) 0
  else (s.getD (n / 2 - 1) 0 + s.getD (n / 2) 0) / 2

/-- Population variance, modelling `np.var`. -/
def varL (l : List ℚ) : ℚ := meanL (l.map (fun x => (x - meanL l) ^ 2))

/-- Per-row means of a 2-D array, modelling `np.mean(a, axis=1)`. -/
def rowMeans (img : Img) : List ℚ :=
  (List.range img.h).map (fun i => meanL ((List.range img.w).map (fun j => img.data i j)))

/-- Model of Python `int()` on a float: truncation toward zero, which on
a reduced fraction is `Int.tdiv` of the numerator by the denominator. -/
def pyInt (q : ℚ) : Int := Int.tdiv q.num (q.den : Int)

/-- Truncation toward zero, clamped to `Nat` (used where the source feeds
the result into a shape or slice bound; all claims use nonnegative values
there). -/
def pyIntNat (q : ℚ) : Nat := (pyInt q).toNat

/-- Model of `scipy.stats.scoreatpercentile(a, per)` with the default
fraction interpolation: sort, take the fractional index
`per/100 * (n-1)`, and linearly interpolate between the two neighbouring
order statistics (`0` on empty data, where scipy produces nan). -/
def scoreatpercentile (l : List ℚ) (per : ℚ) : ℚ :=
  let values := sortQ l
  let n := values.length
  if n = 0 then 0
  else
    let idx : ℚ := per / 100 * ((n : ℚ) - 1)
    let k := (pyInt idx).toNat
    let frac := idx - (pyInt idx : ℚ)
    let a := values.getD k 0
    if frac = 0 then a else a + (values.getD (k + 1) 0 - a) * frac

/-- Model of `np.linspace(start, stop, num)`: `num` evenly spaced samples
including both endpoints (empty for `num ≤ 0`).  In exact rational
arithmetic the final sample `start + (num-1)·step` is exactly `stop`, and
for `num = 1` the step divides by zero, which `ℚ` sends to `0`, giving the
singleton `[start]` just as numpy does. -/
def linspaceQ (start stop : ℚ) (num : Int) : List ℚ :=
  if num ≤ 0 then []
  else
    let step := (stop - start) / ((num : ℚ) - 1)
    (List.range num.toNat).map (fun (i : Nat) => start + (i : ℚ) * step)

/-- Boolean mask over a 2-D grid, modelling a numpy boolean array. -/
structure BMask where
  h : Nat
  w : Nat
  data : Nat → Nat → Bool

/-- External numeric primitives of scipy/numpy used by the pipeline.  The
source treats these as black-box pure operations; each field records the
call shape used in `nlbin.py`. -/
structure Prims where
  /-- `scipy.ndimage.interpolation.zoom(image, factor)`. -/
  zoomP : ℚ → Img → Img
  /-- `scipy.ndimage.filters.percentile_filter(m, perc, size=(a, b))`. -/
  percentileFilter : ℚ → Nat × Nat → Img → Img
  /-- `scipy.ndimage.filters.gaussian_filter(a, sigma)`. -/
  gaussianFilter : ℚ → Img → Img
  /-- `scipy.ndimage.interpolation.rotate(image, a, order=0, mode="constant")`
  (reshape defaults to true). -/
  rotate0 : ℚ → Img → Img
  /-- `scipy.ndimage.interpolation.rotate(flat, angle, mode="constant",
  reshape=0)` (default spline order). -/
  rotateNR : ℚ → Img → Img
  /-- `scipy.ndimage.morphology.binary_dilation(v, structure=np.ones((a, b)))`. -/
  binaryDilation : Nat × Nat → BMask → BMask
  /-- Elementwise `x ** 0.5` (numpy square root, irrational in general, so
  abstracted). -/
  sqrtP : ℚ → ℚ

/-- Error taxonomy of the specification.  The source raises `ValueError`
with distinct messages; the specification names them `ShapeError`
("input image is color image"), `OrientationError` ("image may be
inverted"), `SizeError` (the four size messages), `EmptyImageError`
("image is empty").  `UnpackError` models the `ValueError` Python itself
raises when `h, w = image.shape` unpacks a shape that is not 2-D. -/
inductive Err where
  | ShapeError
  | OrientationError
  | SizeError
  | EmptyImageError
  | UnpackError

deriving DecidableEq

/-- Raw ndarray as `check_page` receives it: a shape tuple together with
the flattened sample values (so 3-D color inputs are representable). -/
structure NdArr where
  shape : List Nat
  vals : List ℚ

/-- Translation of `check_page` (nlbin.py lines 113-126): reject color
(3-D) input, then apparently-inverted input (`mean < median`), then
implausible page sizes. -/
def check_page (a : NdArr) : Except Err Unit :=
  if a.shape.length = 3 then .error .ShapeError
  else if meanL a.vals < medianL a.vals then .error .OrientationError
  else
    match a.shape with
    | [h, w] =>
      if h < 600 then .error .SizeError
      else if 10000 < h then .error .SizeError
      else if w < 600 then .error .SizeError
      else if 10000 < w then .error .SizeError
      else .ok ()
    | _ => .error .UnpackError

/-- Intermediate array `image = raw - np.amin(raw)` of
`normalize_raw_image`. -/
def normSub (raw : Img) : Img := mapImg (fun x => x - amin raw) raw

/-- Value returned by `normalize_raw_image` on the non-degenerate path:
`image /= np.amax(image)` applied to `normSub raw`. -/
def normVal (raw : Img) : Img :=
  mapImg (fun x => x / amax (normSub raw)) (normSub raw)

/-- Translation of `normalize_raw_image` (nlbin.py lines 164-170). -/
def normalize_raw_image (raw : Img) : Except Err Img :=
  if amax (normSub raw) = amin (normSub raw) then .error .EmptyImageError
  else .ok (normVal raw)

/-- Slice `img[o0 : img.h - o0, o1 : img.w - o1]`.  For `o0 ≤ img.h` the
Python slice has `max 0 (img.h - 2 o0)` rows, which is the truncated `Nat`
subtraction below; for `o0 > img.h` the start index already exceeds the
length so the slice is empty, again matching.  (Negative offsets, i.e.
`bignore < 0`, are outside every claim and not modelled.) -/
def cropB (img : Img) (o0 o1 : Nat) : Img :=
  ⟨img.h - o0 - o0, img.w - o1 - o1, fun i j => img.data (i + o0) (j + o1)⟩

/-- Lexicographic strictly-less on `(variance, angle)` pairs: Python tuple
comparison as used by `max(estimates)`. -/
def plt (p q : ℚ × ℚ) : Prop := p.1 < q.1 ∨ (p.1 = q.1 ∧ p.2 < q.2)

instance (p q : ℚ × ℚ) : Decidable (plt p q) := by
  unfold plt; infer_instance

/-- One step of Python `max`: keep the current best `c`, replace it when
the next item is strictly greater. -/
def pmax (c x : ℚ × ℚ) : ℚ × ℚ := if plt c x then x else c

/-- Variance objective of the skew search at angle `a`:
`np.var(np.mean(rotate(image, a, order=0, mode="constant"), axis=1))`. -/
def varAt (P : Prims) (image : Img) (a : ℚ) : ℚ :=
  varL (rowMeans (P.rotate0 a image))

/-- Translation of `estimate_skew_angle` (nlbin.py lines 129-139): for
each candidate angle, rotate (order 0, constant fill), take per-row means,
take their variance; return the angle of the `max` of the
`(variance, angle)` pairs.  The debug branch only plots and is omitted;
`max` of the empty list (empty `angles`) raises in Python and is modelled
as `0`, outside every claim. -/
def estimate_skew_angle (P : Prims) (image : Img) (angles : List ℚ) : ℚ :=
  let estimates := angles.map (fun a => (varAt P image a, a))
  match estimates with
  | [] => 0
  | p :: rest => (rest.foldl pmax p).2

/-- Translation of `estimate_local_whitelevel` (nlbin.py lines 173-193):
zoom down, two separable percentile filters, zoom back up, crop both the
image and the background estimate to their common minimal shape, and
return `clip(image - m + 1, 0, 1)`.  The debug branches only plot and are
omitted. -/
def estimate_local_whitelevel (P : Prims) (image : Img) (zoom perc : ℚ)
    (rng : Nat) : Img :=
  let m := P.zoomP zoom image
  let m := P.percentileFilter perc (rng, 2) m
  let m := P.percentileFilter perc (2, rng) m
  let m := P.zoomP (1 / zoom) m
  let w := min image.h m.h
  let h := min image.w m.w
  ⟨w, h, fun i j => max 0 (min 1 (image.data i j - m.data i j + 1))⟩

/-- Candidate angle list of `estimate_skew`:
`np.linspace(-ma, ma, int(2 * maxskew * skewsteps) + 1)`. -/
def skewAngles (maxskew : ℚ) (skewsteps : Nat) : List ℚ :=
  linspaceQ (-maxskew) maxskew (pyInt (2 * maxskew * (skewsteps : ℚ)) + 1)

/-- Translation of `estimate_skew` (nlbin.py lines 196-209): invert
polarity, renormalize the minimum to zero, estimate the angle on the
border-cropped region, rotate the whole image by it with `reshape=0`, and
invert polarity back. -/
def estimate_skew (P : Prims) (flat : Img) (bignore maxskew : ℚ)
    (skewsteps : Nat) : Img × ℚ :=
  let d0 := flat.h
  let d1 := flat.w
  let o0 := pyIntNat (bignore * (d0 : ℚ))
  let o1 := pyIntNat (bignore * (d1 : ℚ))
  let flat1 := mapImg (fun x => amax flat - x) flat
  let flat2 := mapImg (fun x => x - amin flat1) flat1
  let est := cropB flat2 o0 o1
  let angle := estimate_skew_angle P est (skewAngles maxskew skewsteps)
  let flat3 := P.rotateNR angle flat2
  let flat4 := mapImg (fun x => amax flat3 - x) flat3
  (flat4, angle)

/-- Row-major boolean masking `est[v]`, modelling numpy fancy indexing
with a boolean array of the same shape. -/
def maskSelect (est : Img) (v : BMask) : List ℚ :=
  (List.range est.h).flatMap (fun i =>
    (List.range est.w).filterMap (fun j =>
      if v.data i j then some (est.data i j) else none))

/-- Threshold mask `v > t` over a 2-D array. -/
def threshMask (img : Img) (t : ℚ) : BMask :=
  ⟨img.h, img.w, fun i j => t < img.data i j⟩

/-- Translation of `estimate_thresholds` (nlbin.py lines 212-238): crop a
`bignore` border; when `escale > 0`, restrict to a dilated
high-local-variance mask; return the `lo`-th and `hi`-th percentiles of
the selected samples.  The debug branch only plots and is omitted. -/
def estimate_thresholds (P : Prims) (flat : Img) (bignore escale lo hi : ℚ) :
    ℚ × ℚ :=
  let d0 := flat.h
  let d1 := flat.w
  let o0 := pyIntNat (bignore * (d0 : ℚ))
  let o1 := pyIntNat (bignore * (d1 : ℚ))
  let est := cropB flat o0 o1
  let sel : List ℚ :=
    if 0 < escale then
      let e := escale
      let g := P.gaussianFilter (e * 20) est
      let v1 : Img := ⟨est.h, est.w, fun i j => est.data i j - g.data i j⟩
      let v2 := mapImg P.sqrtP
        (P.gaussianFilter (e * 20) (mapImg (fun x => x * x) v1))
      let vm := threshMask v2 (3 / 10 * amax v2)
      let vm := P.binaryDilation (pyIntNat (e * 50), 1) vm
      let vm := P.binaryDilation (1, pyIntNat (e * 50)) vm
      maskSelect est vm
    else toList est
  (scoreatpercentile sel lo, scoreatpercentile sel hi)

/-- Configuration bundle: the numeric fields of the argparse
defaults that `nlbin` consumes (`threshold`, `gray`, `nocheck`, `debug`
and the file names only matter to the out-of-scope CLI wrapper). -/
structure Args where
  zoom : ℚ
  escale : ℚ
  bignore : ℚ
  perc : ℚ
  rng : Nat
  maxskew : ℚ
  lo : ℚ
  hi : ℚ
  skewsteps : Nat

/-- Argparse defaults of the source. -/
def default_args : Args := ⟨1 / 2, 1, 1 / 10, 80, 20, 2, 5, 90, 8⟩

/-- Deskewed flattened image of the pipeline, given the already-normalized
image: stages 4.3 and 4.4 composed. -/
def pipeFlat (P : Prims) (args : Args) (image : Img) : Img :=
  (estimate_skew P
    (estimate_local_whitelevel P image args.zoom args.perc args.rng)
    args.bignore args.maxskew args.skewsteps).1

/-- Threshold pair the pipeline computes on the deskewed flattened image. -/
def pipeThresh (P : Prims) (args : Args) (image : Img) : ℚ × ℚ :=
  estimate_thresholds P (pipeFlat P args image) args.bignore args.escale
    args.lo args.hi

/-- Translation of `nlbin` (nlbin.py lines 241-254): normalize, flatten,
deskew, estimate thresholds, then `flat -= lo; flat /= hi - lo;
flat = clip(flat, 0, 1)`.  The dtype assertion is vacuous in the rational
model. -/
def nlbin (P : Prims) (args : Args) (raw : Img) : Except Err Img :=
  match normalize_raw_image raw with
  | .error e => .error e
  | .ok image =>
    let flat := pipeFlat P args image
    let lohi := pipeThresh P args image
    let flat := mapImg (fun x => x - lohi.1) flat
    let flat := mapImg (fun x => x / (lohi.2 - lohi.1)) flat
    .ok (mapImg (fun x => max 0 (min 1 x)) flat)

/-- Decidable success test for pipeline results. -/
def isOkE (e : Except Err Img) : Bool :=
  match e with
  | .ok _ => true
  | .error _ => false

/-- Trivial concrete instantiation of the primitives (identity
interpolation and filters): used to run the pipeline on concrete inputs.
On a 1-sample image every faithful model of `rotate` with constant fill
agrees with the identity. -/
def trivPrims : Prims :=
  ⟨fun _ img => img, fun _ _ img => img, fun _ img => img,
   fun _ img => img, fun _ img => img, fun _ m => m, id⟩

/-- Round half to even on rationals, as Python `round` does. -/
def roundHE (q : ℚ) : Int :=
  let f := ⌊q⌋
  let r := q - (f : ℚ)
  if r < 1 / 2 then f
  else if (1 : ℚ) / 2 < r then f + 1
  else if f % 2 = 0 then f else f + 1

/-- Output length of `scipy.ndimage.zoom` along one axis:
`int(round(n * factor))`. -/
def zoomLen (n : Nat) (factor : ℚ) : Nat := (roundHE ((n : ℚ) * factor)).toNat

/-- Shape-faithful model of `scipy.ndimage.interpolation.zoom`: the output
shape is `int(round(n * factor))` per axis (the documented behaviour of scipy);
sample values are passed through positionally, which suffices for every
shape-level fact. -/
def npZoom (factor : ℚ) (img : Img) : Img :=
  ⟨zoomLen img.h factor, zoomLen img.w factor, img.data⟩

/-- Primitives with the shape-faithful zoom model and identity filters. -/
def npPrims : Prims :=
  ⟨npZoom, fun _ _ img => img, fun _ img => img,
   fun _ img => img, fun _ img => img, fun _ m => m, id⟩

/-- Concrete 2 by 2 non-constant test image. -/
def raw2 : Img := ⟨2, 2, fun i j => if i = 0 ∧ j = 0 then 0 else 1⟩

/-! ## BackgroundFlattener shape (claim C4) -/

/-- Concrete 601 by 601 input: the zoom round trip at factor 1/2 maps 601
to 600, so the background estimate is smaller than the input. -/
def img601 : Img := ⟨601, 601, fun _ _ => 0⟩

/-- Concrete 3 by 3 test image with pairwise distinct samples. -/
def img3 : Img := ⟨3, 3, fun i j => ((i * 3 + j : Nat) : ℚ) / 10⟩

/-- Concrete single-sample image: any faithful constant-fill rotation
fixes it, so every candidate angle produces the same variance. -/
def cimg : Img := ⟨1, 1, fun _ _ => 1/2⟩

/-! ## Full pipeline output (claim C1) -/

/-- Final rescale formula of the pipeline:
`clip((flat - lo) / (hi - lo), 0, 1)` applied to the deskewed flattened
image with the estimated thresholds `(lo, hi)`. -/
def nlbinOut (P : Prims) (args : Args) (image : Img) : Img :=
  mapImg (fun x => max 0 (min 1 ((x - (pipeThresh P args image).1) /
    ((pipeThresh P args image).2 - (pipeThresh P args image).1))))
    (pipeFlat P args image)

/-! ## Buffer-level model of the pipeline (claim C9)

Numpy arrays are mutable buffers.  To state that no stage mutates the
array passed to it, each function is re-translated statement by
statement over an explicit store (a list of buffers, addressed by
allocation order): expressions like `raw - np.amin(raw)` allocate a
fresh buffer, in-place statements (`image /= ...`, `flat -= ...`)
overwrite an existing buffer, and plain reads leave the store unchanged.
-/

/-- Read buffer `i` of store `σ`. -/
def sget (σ : List Img) (i : Nat) : Img := σ.getD i default

/-- Allocate a fresh buffer holding `v`; returns its address. -/
def salloc (σ : List Img) (v : Img) : Nat × List Img := (σ.length, σ ++ [v])

/-- Store `σf` extends store `σ`: every buffer of `σ` is still intact. -/
def Extends (σ σf : List Img) : Prop :=
  σ.length ≤ σf.length ∧ ∀ k, k < σ.length → sget σf k = sget σ k

/-- Statement-level translation of `normalize_raw_image` over the store:
`image = raw - np.amin(raw)` allocates a fresh buffer; the emptiness test
reads it; `image /= np.amax(image)` overwrites that fresh buffer in
place.  The buffer `raw` of the caller is only read. -/
def normalizeS (σ : List Img) (raw : Nat) : Except Err Nat × List Img :=
  let r := sget σ raw
  let a := salloc σ (mapImg (fun x => x - amin r) r)
  if amax (sget a.2 a.1) = amin (sget a.2 a.1) then (.error .EmptyImageError, a.2)
  else
    (.ok a.1, a.2.set a.1
      (mapImg (fun x => x / amax (sget a.2 a.1)) (sget a.2 a.1)))

/-- Statement-level translation of `estimate_local_whitelevel` over the
store: every statement rebinds `m` (or binds `flat`) to a fresh library
result; nothing is written in place and `image` is only read. -/
def whitelevelS (P : Prims) (σ : List Img) (image : Nat) (zoom perc : ℚ)
    (rng : Nat) : Nat × List Img :=
  let a1 := salloc σ (P.zoomP zoom (sget σ image))
  let a2 := salloc a1.2 (P.percentileFilter perc (rng, 2) (sget a1.2 a1.1))
  let a3 := salloc a2.2 (P.percentileFilter perc (2, rng) (sget a2.2 a2.1))
  let a4 := salloc a3.2 (P.zoomP (1 / zoom) (sget a3.2 a3.1))
  let img0 := sget a4.2 image
  let m := sget a4.2 a4.1
  let a5 := salloc a4.2 ⟨min img0.h m.h, min img0.w m.w,
    fun i j => max 0 (min 1 (img0.data i j - m.data i j + 1))⟩
  (a5.1, a5.2)

/-- Statement-level translation of `estimate_skew` over the store:
`flat = np.amax(flat) - flat` allocates a fresh buffer and rebinds the
name; `flat -= np.amin(flat)` overwrites THAT fresh buffer in place;
`est` is a read-only view; the rotation and the final inversion allocate
fresh buffers.  The buffer of the caller is only read. -/
def skewS (P : Prims) (σ : List Img) (flat : Nat) (bignore maxskew : ℚ)
    (skewsteps : Nat) : (Nat × ℚ) × List Img :=
  let f0 := sget σ flat
  let o0 := pyIntNat (bignore * (f0.h : ℚ))
  let o1 := pyIntNat (bignore * (f0.w : ℚ))
  let a1 := salloc σ (mapImg (fun x => amax f0 - x) f0)
  let σ2 := a1.2.set a1.1
    (mapImg (fun x => x - amin (sget a1.2 a1.1)) (sget a1.2 a1.1))
  let est := cropB (sget σ2 a1.1) o0 o1
  let angle := estimate_skew_angle P est (skewAngles maxskew skewsteps)
  let a2 := salloc σ2 (P.rotateNR angle (sget σ2 a1.1))
  let a3 := salloc a2.2 (mapImg (fun x => amax (sget a2.2 a2.1) - x) (sget a2.2 a2.1))
  ((a3.1, angle), a3.2)

/-- Statement-level translation of `estimate_thresholds` over the store:
the function only reads its argument (the `est` slice is a read-only
view; `v`, the masks and `est[v]` are fresh library outputs that never
alias the buffer of the caller), so the store is returned unchanged. -/
def threshS (P : Prims) (σ : List Img) (flat : Nat) (bignore escale lo hi : ℚ) :
    (ℚ × ℚ) × List Img :=
  (estimate_thresholds P (sget σ flat) bignore escale lo hi, σ)

/-- Statement-level translation of `nlbin` over the store: the stages run
in order; `flat -= lo` and `flat /= hi - lo` overwrite the buffer
returned by the skew stage (a buffer freshly allocated inside that
stage); `flat = np.clip(flat, 0, 1)` allocates the result buffer. -/
def nlbinS (P : Prims) (args : Args) (σ : List Img) (raw : Nat) :
    Except Err Nat × List Img :=
  match normalizeS σ raw with
  | (.error e, σ1) => (.error e, σ1)
  | (.ok image, σ1) =>
    let b1 := whitelevelS P σ1 image args.zoom args.perc args.rng
    let b2 := skewS P b1.2 b1.1 args.bignore args.maxskew args.skewsteps
    let b3 := threshS P b2.2 b2.1.1 args.bignore args.escale args.lo args.hi
    let σ4 := b3.2.set b2.1.1 (mapImg (fun x => x - b3.1.1) (sget b3.2 b2.1.1))
    let σ5 := σ4.set b2.1.1
      (mapImg (fun x => x / (b3.1.2 - b3.1.1)) (sget σ4 b2.1.1))
    let a := salloc σ5 (mapImg (fun x => max 0 (min 1 x)) (sget σ5 b2.1.1))
    (.ok a.1, a.2)

deriving instance DecidableEq for Except

/-- Small configuration for concrete runs: `zoom=1`, `escale=0`,
`bignore=0`, `perc=80`, `range=2`, `maxskew=1`, `lo=5`, `hi=90`,
`skewsteps=1`. -/
def argsS : Args := ⟨1, 0, 0, 80, 2, 1, 5, 90, 1⟩

/-! ## Theorems -/

/-! ## Basic facts about the sample-list minimum and maximum -/

theorem foldl_min_mem (l : List ℚ) : ∀ a : ℚ, l.foldl min a ∈ a :: l := by
  induction l with
  | nil => intro a; simp
  | cons x xs ih =>
    intro a
    simp only [List.foldl_cons]
    rcases List.mem_cons.mp (ih (min a x)) with h1 | h1
    · rcases min_choice a x with hc | hc
      · rw [hc] at h1
        rw [hc, h1]
        exact List.mem_cons_self _ _
      · rw [hc] at h1
        rw [hc, h1]
        exact List.mem_cons_of_mem _ (List.mem_cons_self _ _)
    · exact List.mem_cons_of_mem _ (List.mem_cons_of_mem _ h1)

theorem foldl_min_le (l : List ℚ) : ∀ a x : ℚ, x ∈ a :: l → l.foldl min a ≤ x := by
  induction l with
  | nil =>
    intro a x hx
    simp only [List.foldl_nil]
    rcases List.mem_cons.mp hx with h | h
    · exact le_of_eq h.symm
    · cases h
  | cons y ys ih =>
    intro a x hx
    simp only [List.foldl_cons]
    rcases List.mem_cons.mp hx with h | h
    · rw [h]
      exact le_trans (ih (min a y) (min a y) (List.mem_cons_self _ _)) (min_le_left _ _)
    · rcases List.mem_cons.mp h with h2 | h2
      · rw [h2]
        exact le_trans (ih (min a y) (min a y) (List.mem_cons_self _ _)) (min_le_right _ _)
      · exact ih (min a y) x (List.mem_cons_of_mem _ h2)

theorem foldl_max_mem (l : List ℚ) : ∀ a : ℚ, l.foldl max a ∈ a :: l := by
  induction l with
  | nil => intro a; simp
  | cons x xs ih =>
    intro a
    simp only [List.foldl_cons]
    rcases List.mem_cons.mp (ih (max a x)) with h1 | h1
    · rcases max_choice a x with hc | hc
      · rw [hc] at h1
        rw [hc, h1]
        exact List.mem_cons_self _ _
      · rw [hc] at h1
        rw [hc, h1]
        exact List.mem_cons_of_mem _ (List.mem_cons_self _ _)
    · exact List.mem_cons_of_mem _ (List.mem_cons_of_mem _ h1)

theorem le_foldl_max (l : List ℚ) : ∀ a x : ℚ, x ∈ a :: l → x ≤ l.foldl max a := by
  induction l with
  | nil =>
    intro a x hx
    simp only [List.foldl_nil]
    rcases List.mem_cons.mp hx with h | h
    · exact le_of_eq h
    · cases h
  | cons y ys ih =>
    intro a x hx
    simp only [List.foldl_cons]
    rcases List.mem_cons.mp hx with h | h
    · rw [h]
      exact le_trans (le_max_left _ _) (ih (max a y) (max a y) (List.mem_cons_self _ _))
    · rcases List.mem_cons.mp h with h2 | h2
      · rw [h2]
        exact le_trans (le_max_right _ _) (ih (max a y) (max a y) (List.mem_cons_self _ _))
      · exact ih (max a y) x (List.mem_cons_of_mem _ h2)

theorem aminL_mem (l : List ℚ) (h : l ≠ []) : aminL l ∈ l := by
  cases l with
  | nil => exact absurd rfl h
  | cons x xs => exact foldl_min_mem xs x

theorem amaxL_mem (l : List ℚ) (h : l ≠ []) : amaxL l ∈ l := by
  cases l with
  | nil => exact absurd rfl h
  | cons x xs => exact foldl_max_mem xs x

theorem aminL_le (l : List ℚ) (x : ℚ) (hx : x ∈ l) : aminL l ≤ x := by
  cases l with
  | nil => cases hx
  | cons y ys => exact foldl_min_le ys y x hx

theorem le_amaxL (l : List ℚ) (x : ℚ) (hx : x ∈ l) : x ≤ amaxL l := by
  cases l with
  | nil => cases hx
  | cons y ys => exact le_foldl_max ys y x hx

theorem foldl_min_map (f : ℚ → ℚ) (hf : Monotone f) (l : List ℚ) :
    ∀ a : ℚ, (l.map f).foldl min (f a) = f (l.foldl min a) := by
  induction l with
  | nil => intro a; rfl
  | cons x xs ih =>
    intro a
    simp only [List.map_cons, List.foldl_cons, ← hf.map_min]
    exact ih (min a x)

theorem foldl_max_map (f : ℚ → ℚ) (hf : Monotone f) (l : List ℚ) :
    ∀ a : ℚ, (l.map f).foldl max (f a) = f (l.foldl max a) := by
  induction l with
  | nil => intro a; rfl
  | cons x xs ih =>
    intro a
    simp only [List.map_cons, List.foldl_cons, ← hf.map_max]
    exact ih (max a x)

theorem aminL_map (f : ℚ → ℚ) (hf : Monotone f) (l : List ℚ) (h : l ≠ []) :
    aminL (l.map f) = f (aminL l) := by
  cases l with
  | nil => exact absurd rfl h
  | cons x xs => exact foldl_min_map f hf xs x

theorem amaxL_map (f : ℚ → ℚ) (hf : Monotone f) (l : List ℚ) (h : l ≠ []) :
    amaxL (l.map f) = f (amaxL l) := by
  cases l with
  | nil => exact absurd rfl h
  | cons x xs => exact foldl_max_map f hf xs x

theorem toList_mapImg (f : ℚ → ℚ) (img : Img) :
    toList (mapImg f img) = (toList img).map f := by
  simp only [toList, mapImg, List.map_flatMap]
  apply congrArg
  funext i
  rw [List.map_map]
  rfl

/-! ## Normalizer (claim C5) -/

theorem amax_normSub (raw : Img) : amax (normSub raw) = amax raw - amin raw := by
  unfold amax amin normSub
  rw [toList_mapImg]
  rcases eq_or_ne (toList raw) [] with h | h
  · rw [h]
    simp [amaxL, aminL]
  · exact amaxL_map _ (fun a b hab => sub_le_sub_right hab _) _ h

theorem amin_normSub (raw : Img) : amin (normSub raw) = amin raw - amin raw := by
  unfold amin normSub
  rw [toList_mapImg]
  rcases eq_or_ne (toList raw) [] with h | h
  · rw [h]
    simp [aminL]
  · exact aminL_map _ (fun a b hab => sub_le_sub_right hab _) _ h

theorem norm_guard_iff (raw : Img) :
    amax (normSub raw) = amin (normSub raw) ↔ amax raw = amin raw := by
  rw [amax_normSub, amin_normSub, sub_left_inj]

theorem amax_eq_amin_iff (raw : Img) (hne : toList raw ≠ []) :
    amax raw = amin raw ↔ ∀ x ∈ toList raw, ∀ y ∈ toList raw, x = y := by
  constructor
  · intro h x hx y hy
    have h1 : x ≤ amax raw := le_amaxL _ _ hx
    have h2 : amin raw ≤ x := aminL_le _ _ hx
    have h3 : y ≤ amax raw := le_amaxL _ _ hy
    have h4 : amin raw ≤ y := aminL_le _ _ hy
    rw [h] at h1 h3
    have e1 : x = amin raw := le_antisymm h1 h2
    have e2 : y = amin raw := le_antisymm h3 h4
    rw [e1, e2]
  · intro h
    exact h (amax raw) (amaxL_mem _ hne) (amin raw) (aminL_mem _ hne)

/-- C5: `normalize_raw_image` raises `EmptyImageError` exactly when the
input image is constant, and on every non-constant input it returns the
shifted-and-scaled image, whose minimum is `0` and maximum is `1`. -/
theorem normalize_empty_iff_constant (raw : Img) (hne : toList raw ≠ []) :
    (normalize_raw_image raw = .error .EmptyImageError ↔
      ∀ x ∈ toList raw, ∀ y ∈ toList raw, x = y) ∧
    ((∃ x ∈ toList raw, ∃ y ∈ toList raw, x ≠ y) →
      normalize_raw_image raw = .ok (normVal raw) ∧
        amin (normVal raw) = 0 ∧ amax (normVal raw) = 1) := by
  have hiff := (norm_guard_iff raw).trans (amax_eq_amin_iff raw hne)
  constructor
  · rw [normalize_raw_image]
    split_ifs with hg
    · simpa using hiff.mp hg
    · simp only [reduceCtorEq, false_iff]
      intro hc
      exact hg (hiff.mpr hc)
  · rintro ⟨x, hx, y, hy, hxy⟩
    have hconst : ¬ ∀ x ∈ toList raw, ∀ y ∈ toList raw, x = y := by
      intro hc
      exact hxy (hc x hx y hy)
    have hg : amax (normSub raw) ≠ amin (normSub raw) := by
      intro h
      exact hconst (hiff.mp h)
    have hlt : amin raw < amax raw := by
      rcases lt_or_eq_of_le (aminL_le _ _ (amaxL_mem _ hne)) with h | h
      · exact h
      · exact absurd h.symm (fun h2 => hconst ((amax_eq_amin_iff raw hne).mp h2))
    have hM : (0 : ℚ) < amax (normSub raw) := by
      rw [amax_normSub]
      exact sub_pos.mpr hlt
    have hmap : toList (normVal raw) = (toList (normSub raw)).map
        (fun z => z / amax (normSub raw)) := toList_mapImg _ _
    have hmono : Monotone (fun z : ℚ => z / amax (normSub raw)) :=
      fun a b hab => (div_le_div_iff_of_pos_right hM).mpr hab
    have hne2 : toList (normSub raw) ≠ [] := by
      unfold normSub
      rw [toList_mapImg]
      simpa using hne
    refine ⟨by rw [normalize_raw_image, if_neg hg], ?_, ?_⟩
    · show aminL (toList (normVal raw)) = 0
      rw [hmap, aminL_map _ hmono _ hne2]
      show amin (normSub raw) / amax (normSub raw) = 0
      rw [amin_normSub]
      simp
    · show amaxL (toList (normVal raw)) = 1
      rw [hmap, amaxL_map _ hmono _ hne2]
      show amax (normSub raw) / amax (normSub raw) = 1
      exact div_self (ne_of_gt hM)

/-- C5 witness: the theorem applied to the concrete non-constant image. -/
theorem normalize_empty_iff_constant_witness :
    normalize_raw_image raw2 = .ok (normVal raw2) ∧
      amin (normVal raw2) = 0 ∧ amax (normVal raw2) = 1 :=
  (normalize_empty_iff_constant raw2 (by with_unfolding_all decide)).2
    (by with_unfolding_all decide)

/-! ## BackgroundFlattener bounds (claim C6) -/

/-- C6: every sample of the `estimate_local_whitelevel` output lies in
`[0, 1]`, for any primitives and any configuration with `zoom ∈ (0, 1]`
and `range ≥ 1`, because the result is `clip(image - m + 1, 0, 1)`. -/
theorem whitelevel_output_bounded (P : Prims) (image : Img) (zoom perc : ℚ)
    (rng : Nat) (hz0 : 0 < zoom) (hz1 : zoom ≤ 1) (hr : 1 ≤ rng) (i j : Nat)
    (hi : i < (estimate_local_whitelevel P image zoom perc rng).h)
    (hj : j < (estimate_local_whitelevel P image zoom perc rng).w) :
    0 ≤ (estimate_local_whitelevel P image zoom perc rng).data i j ∧
      (estimate_local_whitelevel P image zoom perc rng).data i j ≤ 1 :=
  ⟨le_max_left _ _, max_le zero_le_one (min_le_left _ _)⟩

/-- C6 witness: the bound at sample (0,0) of a concrete run. -/
theorem whitelevel_output_bounded_witness :
    0 ≤ (estimate_local_whitelevel trivPrims raw2 (1/2) 80 20).data 0 0 ∧
      (estimate_local_whitelevel trivPrims raw2 (1/2) 80 20).data 0 0 ≤ 1 :=
  whitelevel_output_bounded trivPrims raw2 (1/2) 80 20 (by norm_num)
    (by norm_num) (by norm_num) 0 0 (by with_unfolding_all decide)
    (by with_unfolding_all decide)

/-- C4 counterexample: with the shape-faithful model of
`scipy.ndimage.zoom` (output length `int(round(n * factor))` per axis), a
601 by 601 input produces a flattened output whose height is 600, not the
input height. -/
theorem whitelevel_shape_cex :
    (estimate_local_whitelevel npPrims img601 (1/2) 80 20).h ≠ img601.h := by
  with_unfolding_all decide

/-- C4 amended: the flattener output shape is the elementwise minimum of
the input shape and the shape of the upsampled background estimate `m`;
in particular it never exceeds the input shape (and equals it exactly
when the zoom round trip does not shrink `m`). -/
theorem whitelevel_shape (P : Prims) (image : Img) (zoom perc : ℚ) (rng : Nat) :
    ((estimate_local_whitelevel P image zoom perc rng).h =
        min image.h (P.zoomP (1 / zoom) (P.percentileFilter perc (2, rng)
          (P.percentileFilter perc (rng, 2) (P.zoomP zoom image)))).h ∧
      (estimate_local_whitelevel P image zoom perc rng).w =
        min image.w (P.zoomP (1 / zoom) (P.percentileFilter perc (2, rng)
          (P.percentileFilter perc (rng, 2) (P.zoomP zoom image)))).w) ∧
    (estimate_local_whitelevel P image zoom perc rng).h ≤ image.h ∧
    (estimate_local_whitelevel P image zoom perc rng).w ≤ image.w :=
  ⟨⟨rfl, rfl⟩, Nat.min_le_left _ _, Nat.min_le_left _ _⟩

/-! ## Skew-search angle grid (claim C7) -/

theorem pyInt_nonneg (q : ℚ) (h : 0 ≤ q) : 0 ≤ pyInt q :=
  Int.tdiv_nonneg (Rat.num_nonneg.mpr h) (Int.ofNat_nonneg _)

theorem pyInt_natCast (k : Nat) : pyInt (k : ℚ) = k := by
  unfold pyInt
  rw [Rat.num_natCast, Rat.den_natCast]
  exact Int.tdiv_one _

theorem getD_map_range (n i : Nat) (f : Nat → ℚ) (h : i < n) :
    ((List.range n).map f).getD i 0 = f i := by
  rw [List.getD_eq_getElem?_getD, List.getElem?_map, List.getElem?_range h]
  rfl

/-- C7 counterexample: at `maxskew = 1.3`, `skewsteps = 1` the candidate
list has 3 samples, not `2 * maxskew * skewsteps + 1 = 3.6`. -/
theorem skewAngles_count_cex :
    ((skewAngles (13/10) 1).length : ℚ) ≠ 2 * (13/10) * 1 + 1 := by
  with_unfolding_all decide

/-- C7 amended: for `maxskew > 0` and `skewsteps ≥ 1` the candidate list
has `int(2 * maxskew * skewsteps) + 1` linearly spaced samples over
`[-maxskew, maxskew]` (first sample `-maxskew`, constant step
`2 * maxskew / int(2 * maxskew * skewsteps)`, last sample `maxskew`);
this equals the claimed `2 * maxskew * skewsteps + 1` exactly when that
product is an integer. -/
theorem skewAngles_spec (ma : ℚ) (ss : Nat) (hma : 0 < ma) (hss : 1 ≤ ss) :
    (skewAngles ma ss).length = (pyInt (2 * ma * (ss : ℚ))).toNat + 1 ∧
    (∀ k : Nat, 2 * ma * (ss : ℚ) = (k : ℚ) → (skewAngles ma ss).length = k + 1) ∧
    (∀ i : Nat, i < (skewAngles ma ss).length →
      (skewAngles ma ss).getD i 0 =
        -ma + (i : ℚ) * ((2 * ma) / ((pyInt (2 * ma * (ss : ℚ)) : Int) : ℚ))) ∧
    (1 ≤ pyInt (2 * ma * (ss : ℚ)) →
      (skewAngles ma ss).getD 0 0 = -ma ∧
      (skewAngles ma ss).getD ((skewAngles ma ss).length - 1) 0 = ma) := by
  have hq : (0 : ℚ) ≤ 2 * ma * (ss : ℚ) := by positivity
  have hnn : 0 ≤ pyInt (2 * ma * (ss : ℚ)) := pyInt_nonneg _ hq
  set m := pyInt (2 * ma * (ss : ℚ)) with hm
  have hpos : ¬ (m + 1 ≤ 0) := by omega
  have hunf : skewAngles ma ss = (List.range (m + 1).toNat).map
      (fun (i : Nat) => -ma + (i : ℚ) * ((ma - -ma) / (((m + 1 : Int) : ℚ) - 1))) := by
    rw [skewAngles, linspaceQ, if_neg hpos]
  have hlen : (skewAngles ma ss).length = m.toNat + 1 := by
    rw [hunf, List.length_map, List.length_range]
    omega
  have hstep : (ma - -ma) / (((m + 1 : Int) : ℚ) - 1) = (2 * ma) / ((m : Int) : ℚ) := by
    have e1 : (((m + 1 : Int) : ℚ) - 1) = ((m : Int) : ℚ) := by
      push_cast
      ring
    have e2 : ma - -ma = 2 * ma := by ring
    rw [e1, e2]
  refine ⟨hlen, ?_, ?_, ?_⟩
  · intro k hk
    have : m = (k : Int) := by
      rw [hm, hk, pyInt_natCast]
    rw [hlen, this]
    omega
  · intro i hi
    rw [hlen] at hi
    have hi2 : i < (m + 1).toNat := by omega
    rw [hunf, getD_map_range _ _ _ hi2, hstep]
  · intro h1
    have hm0 : ((m : Int) : ℚ) ≠ 0 := by
      have : (1 : ℚ) ≤ ((m : Int) : ℚ) := by exact_mod_cast h1
      linarith
    constructor
    · rw [hunf, getD_map_range _ _ _ (by omega)]
      simp
    · rw [hlen, hunf, getD_map_range _ _ _ (by omega), hstep]
      have hcast : ((m.toNat + 1 - 1 : Nat) : ℚ) = ((m : Int) : ℚ) := by
        rw [Nat.add_sub_cancel, ← Int.toNat_of_nonneg hnn]
        norm_cast
      rw [hcast]
      field_simp
      ring

/-- C7 witness: at the defaults `maxskew = 2`, `skewsteps = 8` the grid
has 33 samples running from -2 to 2. -/
theorem skewAngles_spec_witness :
    (skewAngles 2 8).length = 33 ∧ (skewAngles 2 8).getD 0 0 = -2 ∧
      (skewAngles 2 8).getD 32 0 = 2 := by
  have h := skewAngles_spec 2 8 (by norm_num) (by norm_num)
  have h32 : (2 : ℚ) * 2 * ((8 : Nat) : ℚ) = ((32 : Nat) : ℚ) := by norm_num
  have hlen : (skewAngles 2 8).length = 33 := h.2.1 32 h32
  have hend := h.2.2.2 (by with_unfolding_all decide)
  refine ⟨hlen, hend.1, ?_⟩
  have := hend.2
  rw [hlen] at this
  exact this

/-! ## ThresholdEstimator with masking disabled (claim C8) -/

/-- C8: when `escale ≤ 0`, `estimate_thresholds` returns the `lo`-th and
`hi`-th percentiles of the full border-cropped region, with no text mask
applied. -/
theorem thresholds_escale_nonpos (P : Prims) (flat : Img)
    (bignore escale lo hi : ℚ) (h : escale ≤ 0) :
    estimate_thresholds P flat bignore escale lo hi =
      (scoreatpercentile (toList (cropB flat (pyIntNat (bignore * (flat.h : ℚ)))
          (pyIntNat (bignore * (flat.w : ℚ))))) lo,
       scoreatpercentile (toList (cropB flat (pyIntNat (bignore * (flat.h : ℚ)))
          (pyIntNat (bignore * (flat.w : ℚ))))) hi) := by
  simp only [estimate_thresholds, if_neg (not_lt.mpr h)]

/-- C8 witness: the theorem applied at `escale = 0` on a concrete image. -/
theorem thresholds_escale_nonpos_witness :
    estimate_thresholds trivPrims img3 (1/10) 0 5 90 =
      (scoreatpercentile (toList (cropB img3 (pyIntNat ((1/10) * (img3.h : ℚ)))
          (pyIntNat ((1/10) * (img3.w : ℚ))))) 5,
       scoreatpercentile (toList (cropB img3 (pyIntNat ((1/10) * (img3.h : ℚ)))
          (pyIntNat ((1/10) * (img3.w : ℚ))))) 90) :=
  thresholds_escale_nonpos trivPrims img3 (1/10) 0 5 90 le_rfl

/-! ## Deskewing preserves shape (claim C10) -/

/-- C10: when the rotation primitive at `reshape=0` preserves shape (the
documented contract of `scipy.ndimage.rotate` with `reshape=False`), the
deskewed image returned by `estimate_skew` has exactly the shape of its
input. -/
theorem estimate_skew_shape (P : Prims)
    (hres : ∀ a img, (P.rotateNR a img).h = img.h ∧ (P.rotateNR a img).w = img.w)
    (flat : Img) (bignore maxskew : ℚ) (skewsteps : Nat) :
    (estimate_skew P flat bignore maxskew skewsteps).1.h = flat.h ∧
      (estimate_skew P flat bignore maxskew skewsteps).1.w = flat.w :=
  ⟨(hres _ _).1, (hres _ _).2⟩

/-- C10 witness: identity interpolation trivially preserves shape, so the
deskewed concrete image keeps its 2 by 2 shape. -/
theorem estimate_skew_shape_witness :
    (estimate_skew trivPrims raw2 (1/10) 2 8).1.h = raw2.h ∧
      (estimate_skew trivPrims raw2 (1/10) 2 8).1.w = raw2.w :=
  estimate_skew_shape trivPrims (fun _ _ => ⟨rfl, rfl⟩) raw2 (1/10) 2 8

/-! ## Skew-angle search tie-breaking (claim C3) -/

theorem plt_irrefl (p : ℚ × ℚ) : ¬ plt p p := by
  rintro (h | ⟨h1, h2⟩)
  · exact lt_irrefl _ h
  · exact lt_irrefl _ h2

theorem plt_trans (a b c : ℚ × ℚ) (h1 : plt a b) (h2 : plt b c) : plt a c := by
  rcases h1 with h1 | ⟨e1, l1⟩
  · rcases h2 with h2 | ⟨e2, l2⟩
    · exact Or.inl (lt_trans h1 h2)
    · exact Or.inl (lt_of_lt_of_le h1 (le_of_eq e2))
  · rcases h2 with h2 | ⟨e2, l2⟩
    · exact Or.inl (lt_of_le_of_lt (le_of_eq e1) h2)
    · exact Or.inr ⟨e1.trans e2, lt_trans l1 l2⟩

theorem plt_shift (r x p : ℚ × ℚ) (h1 : plt r x) (h2 : ¬ plt p x) : plt r p := by
  rcases h1 with h1 | ⟨e1, l1⟩
  · have hx : x.1 ≤ p.1 := by
      by_contra hc
      exact h2 (Or.inl (not_le.mp hc))
    exact Or.inl (lt_of_lt_of_le h1 hx)
  · have hx : x.1 ≤ p.1 := by
      by_contra hc
      exact h2 (Or.inl (not_le.mp hc))
    rcases lt_or_eq_of_le hx with hlt | heq
    · exact Or.inl (lt_of_le_of_lt (le_of_eq e1) hlt)
    · have hx2 : x.2 ≤ p.2 := by
        by_contra hc
        exact h2 (Or.inr ⟨heq.symm, not_le.mp hc⟩)
      exact Or.inr ⟨e1.trans heq, lt_of_lt_of_le l1 hx2⟩

theorem foldl_pmax_mem (l : List (ℚ × ℚ)) : ∀ p, l.foldl pmax p ∈ p :: l := by
  induction l with
  | nil => intro p; simp
  | cons x xs ih =>
    intro p
    simp only [List.foldl_cons]
    rcases List.mem_cons.mp (ih (pmax p x)) with h1 | h1
    · rw [h1]
      unfold pmax
      split_ifs with hc
      · exact List.mem_cons_of_mem _ (List.mem_cons_self _ _)
      · exact List.mem_cons_self _ _
    · exact List.mem_cons_of_mem _ (List.mem_cons_of_mem _ h1)

theorem plt_asymm (a b : ℚ × ℚ) (h : plt a b) : ¬ plt b a :=
  fun h2 => plt_irrefl a (plt_trans _ _ _ h h2)

theorem not_plt_pmax_left (p x : ℚ × ℚ) : ¬ plt (pmax p x) p := by
  unfold pmax
  split_ifs with hc
  · exact plt_asymm _ _ hc
  · exact plt_irrefl p

theorem not_plt_pmax_right (p x : ℚ × ℚ) : ¬ plt (pmax p x) x := by
  unfold pmax
  split_ifs with hc
  · exact plt_irrefl x
  · exact hc

theorem foldl_pmax_not_plt (l : List (ℚ × ℚ)) :
    ∀ p, ∀ q ∈ p :: l, ¬ plt (l.foldl pmax p) q := by
  induction l with
  | nil =>
    intro p q hq
    rcases List.mem_cons.mp hq with h | h
    · rw [h]
      exact plt_irrefl p
    · cases h
  | cons x xs ih =>
    intro p q hq
    simp only [List.foldl_cons]
    have hhead := ih (pmax p x) (pmax p x) (List.mem_cons_self _ _)
    rcases List.mem_cons.mp hq with h | h
    · rw [h]
      intro hrp
      exact hhead (plt_shift _ _ _ hrp (not_plt_pmax_left p x))
    · rcases List.mem_cons.mp h with h2 | h2
      · rw [h2]
        intro hrx
        exact hhead (plt_shift _ _ _ hrx (not_plt_pmax_right p x))
      · exact ih (pmax p x) q (List.mem_cons_of_mem _ h2)

/-- C3 amended: `estimate_skew_angle` returns a candidate whose variance
objective is maximal; among candidates attaining the maximal variance it
returns the LARGEST angle (the last in ascending order), because Python
`max` compares the `(variance, angle)` tuples lexicographically and the
angle is part of the comparison. -/
theorem estimate_skew_angle_max (P : Prims) (image : Img) (angles : List ℚ)
    (hne : angles ≠ []) (hsort : List.Sorted (· < ·) angles) :
    estimate_skew_angle P image angles ∈ angles ∧
    (∀ a ∈ angles, varAt P image a ≤
      varAt P image (estimate_skew_angle P image angles)) ∧
    (∀ a ∈ angles, varAt P image a =
      varAt P image (estimate_skew_angle P image angles) →
      a ≤ estimate_skew_angle P image angles) := by
  cases angles with
  | nil => exact absurd rfl hne
  | cons a0 as =>
    have hR : estimate_skew_angle P image (a0 :: as) =
        ((as.map (fun a => (varAt P image a, a))).foldl pmax
          (varAt P image a0, a0)).2 := rfl
    set R := (as.map (fun a => (varAt P image a, a))).foldl pmax
      (varAt P image a0, a0) with hRdef
    have hmem : R ∈ (varAt P image a0, a0) ::
        as.map (fun a => (varAt P image a, a)) := foldl_pmax_mem _ _
    have hmem2 : R ∈ (a0 :: as).map (fun a => (varAt P image a, a)) := hmem
    obtain ⟨b, hb, hgb⟩ := List.mem_map.mp hmem2
    have hR2 : R.2 = b := by rw [← hgb]
    have hR1 : R.1 = varAt P image R.2 := by
      rw [hR2, ← hgb]
    have hnot : ∀ a ∈ a0 :: as, ¬ plt R (varAt P image a, a) := by
      intro a ha
      have hmm : (varAt P image a, a) ∈
          (a0 :: as).map (fun a => (varAt P image a, a)) :=
        List.mem_map.mpr ⟨a, ha, rfl⟩
      exact foldl_pmax_not_plt _ _ _ hmm
    refine ⟨?_, ?_, ?_⟩
    · rw [hR, hR2]
      exact hb
    · intro a ha
      have h := hnot a ha
      rw [hR]
      by_contra hc
      refine h (Or.inl ?_)
      rw [hR1]
      exact not_le.mp hc
    · intro a ha heq
      have h := hnot a ha
      rw [hR] at heq ⊢
      by_contra hc
      exact h (Or.inr ⟨by rw [hR1, heq], not_le.mp hc⟩)

/-- C3 counterexample: on the single-sample image the candidates 0 and 1
tie in variance, and the search returns 1 — the LAST tied angle — whereas
the claim requires the first (0). -/
theorem estimate_skew_angle_cex :
    varAt trivPrims cimg 0 = varAt trivPrims cimg 1 ∧
      estimate_skew_angle trivPrims cimg [0, 1] = 1 := by
  constructor
  · rfl
  · with_unfolding_all decide

/-- C3 witness: the amended theorem applied to a concrete search. -/
theorem estimate_skew_angle_max_witness :
    estimate_skew_angle trivPrims raw2 [0, 1] ∈ [(0 : ℚ), 1] ∧
      varAt trivPrims raw2 0 ≤
        varAt trivPrims raw2 (estimate_skew_angle trivPrims raw2 [0, 1]) := by
  have h := estimate_skew_angle_max trivPrims raw2 [0, 1] (by simp)
    (by simp [List.Sorted])
  exact ⟨h.1, h.2.1 0 (by simp)⟩

/-- C1: whenever the pipeline runs (normalization does not reject the
input), the returned image is exactly the clipped rescale
`clip((flat - lo) / (hi - lo), 0, 1)` of the deskewed flattened image,
and every sample of it lies in `[0, 1]`. -/
theorem nlbin_final_rescale (P : Prims) (args : Args) (raw : Img)
    (h : amax (normSub raw) ≠ amin (normSub raw)) :
    nlbin P args raw = .ok (nlbinOut P args (normVal raw)) ∧
    ∀ i j : Nat, 0 ≤ (nlbinOut P args (normVal raw)).data i j ∧
      (nlbinOut P args (normVal raw)).data i j ≤ 1 := by
  constructor
  · rw [nlbin, normalize_raw_image, if_neg h]
    rfl
  · intro i j
    exact ⟨le_max_left _ _, max_le zero_le_one (min_le_left _ _)⟩

/-- C1 witness: a concrete pipeline run and the bound at sample (0,0). -/
theorem nlbin_final_rescale_witness :
    nlbin trivPrims default_args raw2 =
        .ok (nlbinOut trivPrims default_args (normVal raw2)) ∧
      0 ≤ (nlbinOut trivPrims default_args (normVal raw2)).data 0 0 ∧
      (nlbinOut trivPrims default_args (normVal raw2)).data 0 0 ≤ 1 := by
  have h := nlbin_final_rescale trivPrims default_args raw2
    (by with_unfolding_all decide)
  exact ⟨h.1, h.2 0 0⟩

/-! ## Input validation is dead code (claim C2) -/

/-- C2: the checks the claim describes do exist in `check_page` — a 3-D
shape is rejected with `ShapeError` before anything else, and a
well-oriented 500 by 800 image is rejected with `SizeError` — but the
pipeline `nlbin` never invokes `check_page`: it succeeds on ANY
non-constant input, whatever its size. -/
theorem check_page_dead_code :
    (∀ sh vals, sh.length = 3 → check_page ⟨sh, vals⟩ = .error .ShapeError) ∧
    (∀ vals, medianL vals ≤ meanL vals →
      check_page ⟨[500, 800], vals⟩ = .error .SizeError) ∧
    (∀ P args raw, amax (normSub raw) ≠ amin (normSub raw) →
      isOkE (nlbin P args raw) = true) := by
  refine ⟨?_, ?_, ?_⟩
  · intro sh vals h
    rw [check_page, if_pos h]
  · intro vals h
    rw [check_page, if_neg (by simp), if_neg (not_lt.mpr h)]
    rfl
  · intro P args raw h
    rw [nlbin, normalize_raw_image, if_neg h]
    rfl

/-- C2 witness: the theorem applied at concrete inputs. -/
theorem check_page_dead_code_witness :
    check_page ⟨[2, 3, 4], [0, 1]⟩ = .error .ShapeError ∧
      check_page ⟨[500, 800], [0, 0, 1]⟩ = .error .SizeError ∧
      isOkE (nlbin trivPrims default_args raw2) = true := by
  have h := check_page_dead_code
  exact ⟨h.1 [2, 3, 4] [0, 1] rfl,
    h.2.1 [0, 0, 1] (by with_unfolding_all decide),
    h.2.2 trivPrims default_args raw2 (by with_unfolding_all decide)⟩

theorem extends_refl (σ : List Img) : Extends σ σ :=
  ⟨le_refl _, fun _ _ => rfl⟩

theorem extends_trans (σ1 σ2 σ3 : List Img) (h1 : Extends σ1 σ2)
    (h2 : Extends σ2 σ3) : Extends σ1 σ3 :=
  ⟨le_trans h1.1 h2.1, fun k hk => (h2.2 k (lt_of_lt_of_le hk h1.1)).trans (h1.2 k hk)⟩

theorem sget_append_lt (σ τ : List Img) (k : Nat) (h : k < σ.length) :
    sget (σ ++ τ) k = sget σ k := by
  unfold sget
  rw [List.getD_eq_getElem?_getD, List.getD_eq_getElem?_getD,
    List.getElem?_append_left h]

theorem sget_alloc_self (σ : List Img) (v : Img) : sget (σ ++ [v]) σ.length = v := by
  unfold sget
  rw [List.getD_eq_getElem?_getD, List.getElem?_append_right (le_refl _)]
  simp

theorem sget_set_ne (σ : List Img) (j : Nat) (v : Img) (k : Nat) (h : k ≠ j) :
    sget (σ.set j v) k = sget σ k := by
  unfold sget
  rw [List.getD_eq_getElem?_getD, List.getD_eq_getElem?_getD,
    List.getElem?_set_ne (fun he => h he.symm)]

theorem sget_set_self (σ : List Img) (j : Nat) (v : Img) (h : j < σ.length) :
    sget (σ.set j v) j = v := by
  unfold sget
  rw [List.getD_eq_getElem?_getD, List.getElem?_set_self h]
  rfl

theorem extends_alloc (σ : List Img) (v : Img) : Extends σ (σ ++ [v]) :=
  ⟨by simp, fun k hk => sget_append_lt σ [v] k hk⟩

theorem extends_set (σ σf : List Img) (h : Extends σ σf) (j : Nat)
    (hj : σ.length ≤ j) (v : Img) : Extends σ (σf.set j v) :=
  ⟨by rw [List.length_set]; exact h.1,
   fun k hk => by
     rw [sget_set_ne _ _ _ _ (by omega)]
     exact h.2 k hk⟩

theorem normalizeS_spec (σ : List Img) (raw : Nat) :
    Extends σ (normalizeS σ raw).2 ∧
    (normalizeS σ raw).2.length = σ.length + 1 ∧
    (amax (normSub (sget σ raw)) = amin (normSub (sget σ raw)) →
      (normalizeS σ raw).1 = .error .EmptyImageError) ∧
    (amax (normSub (sget σ raw)) ≠ amin (normSub (sget σ raw)) →
      (normalizeS σ raw).1 = .ok σ.length ∧
      sget (normalizeS σ raw).2 σ.length = normVal (sget σ raw)) := by
  unfold normalizeS salloc
  dsimp only
  rw [sget_alloc_self]
  simp only [show (mapImg (fun x => x - amin (sget σ raw)) (sget σ raw)) =
    normSub (sget σ raw) from rfl]
  by_cases hg : amax (normSub (sget σ raw)) = amin (normSub (sget σ raw))
  · rw [if_pos hg]
    exact ⟨extends_alloc _ _, by simp, fun _ => rfl, fun hn => absurd hg hn⟩
  · rw [if_neg hg]
    refine ⟨extends_set _ _ (extends_alloc _ _) _ (le_refl _) _, by simp,
      fun he => absurd he hg, fun _ => ⟨rfl, ?_⟩⟩
    dsimp only
    rw [sget_set_self _ _ _ (by simp)]
    rfl

theorem whitelevelS_spec (P : Prims) (σ : List Img) (image : Nat) (z p : ℚ)
    (r : Nat) (him : image < σ.length) :
    Extends σ (whitelevelS P σ image z p r).2 ∧
    σ.length ≤ (whitelevelS P σ image z p r).1 ∧
    (whitelevelS P σ image z p r).1 < (whitelevelS P σ image z p r).2.length ∧
    sget (whitelevelS P σ image z p r).2 (whitelevelS P σ image z p r).1 =
      estimate_local_whitelevel P (sget σ image) z p r := by
  unfold whitelevelS salloc
  dsimp only
  refine ⟨?_, ?_, ?_, ?_⟩
  · exact extends_trans _ _ _ (extends_alloc _ _) (extends_trans _ _ _
      (extends_alloc _ _) (extends_trans _ _ _ (extends_alloc _ _)
        (extends_trans _ _ _ (extends_alloc _ _) (extends_alloc _ _))))
  · simp only [List.length_append, List.length_singleton]
    omega
  · simp only [List.length_append, List.length_singleton]
    omega
  · simp only [sget_alloc_self]
    rw [sget_append_lt _ _ _
      (by simp only [List.length_append, List.length_singleton]; omega)]
    rw [sget_append_lt _ _ _
      (by simp only [List.length_append, List.length_singleton]; omega)]
    rw [sget_append_lt _ _ _
      (by simp only [List.length_append, List.length_singleton]; omega)]
    rw [sget_append_lt _ _ _ him]
    rfl

theorem skewS_spec (P : Prims) (σ : List Img) (flat : Nat)
    (bignore maxskew : ℚ) (skewsteps : Nat) (hfl : flat < σ.length) :
    Extends σ (skewS P σ flat bignore maxskew skewsteps).2 ∧
    σ.length ≤ (skewS P σ flat bignore maxskew skewsteps).1.1 ∧
    (skewS P σ flat bignore maxskew skewsteps).1.1 <
      (skewS P σ flat bignore maxskew skewsteps).2.length ∧
    sget (skewS P σ flat bignore maxskew skewsteps).2
        (skewS P σ flat bignore maxskew skewsteps).1.1 =
      (estimate_skew P (sget σ flat) bignore maxskew skewsteps).1 ∧
    (skewS P σ flat bignore maxskew skewsteps).1.2 =
      (estimate_skew P (sget σ flat) bignore maxskew skewsteps).2 := by
  unfold skewS salloc
  dsimp only
  refine ⟨?_, ?_, ?_, ?_, ?_⟩
  · exact extends_trans _ _ _
      (extends_set _ _ (extends_alloc _ _) _ (le_refl _) _)
      (extends_trans _ _ _ (extends_alloc _ _) (extends_alloc _ _))
  · simp only [List.length_append, List.length_singleton, List.length_set]
    omega
  · simp only [List.length_append, List.length_singleton, List.length_set]
    omega
  · simp only [sget_alloc_self]
    rw [sget_set_self _ _ _ (by simp)]
    rfl
  · simp only [sget_alloc_self]
    rw [sget_set_self _ _ _ (by simp)]
    rfl

theorem nlbinS_spec (P : Prims) (args : Args) (σ : List Img) (raw : Nat)
    (hraw : raw < σ.length) :
    Extends σ (nlbinS P args σ raw).2 ∧
    ∀ j, (nlbinS P args σ raw).1 = .ok j → σ.length ≤ j ∧
      nlbin P args (sget σ raw) = .ok (sget (nlbinS P args σ raw).2 j) := by
  have nspec := normalizeS_spec σ raw
  rcases hn : normalizeS σ raw with ⟨res, σ1⟩
  rw [hn] at nspec
  by_cases hg : amax (normSub (sget σ raw)) = amin (normSub (sget σ raw))
  · have herr : res = .error .EmptyImageError := nspec.2.2.1 hg
    subst herr
    have hred : nlbinS P args σ raw = (.error .EmptyImageError, σ1) := by
      unfold nlbinS
      rw [hn]
    rw [hred]
    exact ⟨nspec.1, fun j hj => by cases hj⟩
  · have hok1 : res = .ok σ.length := (nspec.2.2.2 hg).1
    subst hok1
    have hval : sget σ1 σ.length = normVal (sget σ raw) := (nspec.2.2.2 hg).2
    have hlen1 : σ1.length = σ.length + 1 := nspec.2.1
    have hext1 : Extends σ σ1 := nspec.1
    have him : σ.length < σ1.length := by omega
    have wspec := whitelevelS_spec P σ1 σ.length args.zoom args.perc args.rng him
    set b1 := whitelevelS P σ1 σ.length args.zoom args.perc args.rng with hb1
    have sspec := skewS_spec P b1.2 b1.1 args.bignore args.maxskew
      args.skewsteps wspec.2.2.1
    set b2 := skewS P b1.2 b1.1 args.bignore args.maxskew args.skewsteps with hb2
    set b3 := threshS P b2.2 b2.1.1 args.bignore args.escale args.lo args.hi with hb3
    set s4 := b3.2.set b2.1.1
      (mapImg (fun x => x - b3.1.1) (sget b3.2 b2.1.1)) with hs4
    set s5 := s4.set b2.1.1
      (mapImg (fun x => x / (b3.1.2 - b3.1.1)) (sget s4 b2.1.1)) with hs5
    have hred : nlbinS P args σ raw =
        (.ok s5.length, s5 ++ [mapImg (fun x => max 0 (min 1 x)) (sget s5 b2.1.1)]) := by
      unfold nlbinS
      rw [hn]
      rfl
    have hb32 : b3.2 = b2.2 := rfl
    have hfl : σ.length ≤ b2.1.1 :=
      le_trans (le_trans (by omega) wspec.1.1) sspec.2.1
    have hs4len : s4.length = b2.2.length := by
      rw [hs4, List.length_set, hb32]
    have hs5len : s5.length = b2.2.length := by
      rw [hs5, List.length_set, hs4len]
    have hlt3 : b2.1.1 < b3.2.length := by
      rw [hb32]
      exact sspec.2.2.1
    have hlt4 : b2.1.1 < s4.length := by
      rw [hs4len]
      exact sspec.2.2.1
    have e3 : Extends σ b2.2 :=
      extends_trans _ _ _ (extends_trans _ _ _ hext1 wspec.1) sspec.1
    have e4 : Extends σ s4 := by
      rw [hs4]
      exact extends_set _ _ (by rw [hb32]; exact e3) _ hfl _
    have e5 : Extends σ s5 := by
      rw [hs5]
      exact extends_set _ _ e4 _ hfl _
    constructor
    · rw [hred]
      exact extends_trans _ _ _ e5 (extends_alloc _ _)
    · intro j hj
      rw [hred] at hj
      have hj2 : s5.length = j := Except.ok.inj hj
      subst hj2
      constructor
      · rw [hs5len]
        exact e3.1
      · rw [hred]
        dsimp only
        rw [sget_alloc_self]
        rw [hs5, sget_set_self _ _ _ hlt4]
        rw [hs4, sget_set_self _ _ _ hlt3]
        rw [hb3]
        unfold threshS
        dsimp only
        rw [sspec.2.2.2.1, wspec.2.2.2, hval]
        rw [nlbin, normalize_raw_image, if_neg hg]
        rfl

/-- C9: no pipeline stage mutates the buffer passed to it.  Over the
buffer-level translation, each of the five functions leaves the
buffer `i` exactly as it was, and each returns freshly computed results:
the values read back from the returned addresses (respectively the
returned scalars) are the ones computed by the corresponding pure
functions of the input. -/
theorem pipeline_no_mutation (P : Prims) (args : Args) (σ : List Img)
    (i : Nat) (hi : i < σ.length) :
    sget (normalizeS σ i).2 i = sget σ i ∧
    sget (whitelevelS P σ i args.zoom args.perc args.rng).2 i = sget σ i ∧
    sget (skewS P σ i args.bignore args.maxskew args.skewsteps).2 i = sget σ i ∧
    (threshS P σ i args.bignore args.escale args.lo args.hi).2 = σ ∧
    sget (nlbinS P args σ i).2 i = sget σ i ∧
    (∀ j, (normalizeS σ i).1 = .ok j → σ.length ≤ j ∧
      sget (normalizeS σ i).2 j = normVal (sget σ i)) ∧
    (σ.length ≤ (whitelevelS P σ i args.zoom args.perc args.rng).1 ∧
      sget (whitelevelS P σ i args.zoom args.perc args.rng).2
          (whitelevelS P σ i args.zoom args.perc args.rng).1 =
        estimate_local_whitelevel P (sget σ i) args.zoom args.perc args.rng) ∧
    (σ.length ≤ (skewS P σ i args.bignore args.maxskew args.skewsteps).1.1 ∧
      sget (skewS P σ i args.bignore args.maxskew args.skewsteps).2
          (skewS P σ i args.bignore args.maxskew args.skewsteps).1.1 =
        (estimate_skew P (sget σ i) args.bignore args.maxskew args.skewsteps).1 ∧
      (skewS P σ i args.bignore args.maxskew args.skewsteps).1.2 =
        (estimate_skew P (sget σ i) args.bignore args.maxskew args.skewsteps).2) ∧
    (threshS P σ i args.bignore args.escale args.lo args.hi).1 =
      estimate_thresholds P (sget σ i) args.bignore args.escale args.lo args.hi ∧
    (∀ j, (nlbinS P args σ i).1 = .ok j → σ.length ≤ j ∧
      nlbin P args (sget σ i) = .ok (sget (nlbinS P args σ i).2 j)) := by
  have n := normalizeS_spec σ i
  have w := whitelevelS_spec P σ i args.zoom args.perc args.rng hi
  have s := skewS_spec P σ i args.bignore args.maxskew args.skewsteps hi
  have nb := nlbinS_spec P args σ i hi
  refine ⟨n.1.2 i hi, w.1.2 i hi, s.1.2 i hi, rfl, nb.1.2 i hi, ?_,
    ⟨w.2.1, w.2.2.2⟩, ⟨s.2.1, s.2.2.2.1, s.2.2.2.2⟩, rfl, nb.2⟩
  intro j hj
  by_cases hg : amax (normSub (sget σ i)) = amin (normSub (sget σ i))
  · rw [n.2.2.1 hg] at hj
    cases hj
  · have h2 := n.2.2.2 hg
    have hje : j = σ.length := by
      rw [h2.1] at hj
      exact (Except.ok.inj hj).symm
    subst hje
    exact ⟨le_refl _, h2.2⟩

/-- C9 witness: a concrete run of the buffer-level pipeline on a
singleton store leaves the input buffer untouched, allocates the result
at a fresh address (10), and the result buffer holds exactly the pure
pipeline output. -/
theorem pipeline_no_mutation_witness :
    sget (nlbinS trivPrims argsS [raw2] 0).2 0 = sget [raw2] 0 ∧
      sget (normalizeS [raw2] 0).2 0 = sget [raw2] 0 ∧
      (nlbinS trivPrims argsS [raw2] 0).1 = .ok 10 ∧
      nlbin trivPrims argsS (sget [raw2] 0) =
        .ok (sget (nlbinS trivPrims argsS [raw2] 0).2 10) := by
  have h := pipeline_no_mutation trivPrims argsS [raw2] 0 (by decide)
  have hok : (nlbinS trivPrims argsS [raw2] 0).1 = .ok 10 := by
    with_unfolding_all decide
  exact ⟨h.2.2.2.2.1, h.1, hok, (h.2.2.2.2.2.2.2.2.2 10 hok).2⟩

end Nlbin

